import Mathlib

/-!
Verification of the repository structural scanner and symbol extractor of
`codegenie` (`src/utils/file_scanner.py`, `src/utils/code_parser.py`)
against its natural-language specification.

The Python code is shallowly embedded: the filesystem is an explicit tree
value, `os` queries become lookups in that tree, and the CPython `ast`
module's output is an explicit abstract-syntax value (the embedding of
`parse_python_file` takes the parse outcome — a syntax tree or a syntax
error — as input, since `ast.parse` itself is external to the repository).
-/

namespace CodeGenie

/-! ## Embedding of the CPython `ast` values consumed by `code_parser.py`

`parse_python_file` inspects only these node shapes: `FunctionDef`,
`AsyncFunctionDef`, `ClassDef`, `Import`, `ImportFrom`, and it reaches
nested nodes through `ast.walk` (breadth-first traversal of all nodes).
Every other statement kind is abstracted as `other` carrying the child
statements that `ast.walk` would still descend into. Class bases are
either plain identifiers (`ast.Name`, carrying `id`) or any other
expression shape. -/

/-- A class-base expression: `ast.Name` (with its identifier) or any
other expression form. -/
inductive PyBase where
  | name (id : String)
  | otherExpr
deriving DecidableEq, Repr

/-- Python statements as far as `parse_python_file` can observe them.
Line numbers are the 1-based `lineno` attribute. -/
inductive PyStmt where
  | functionDef (name : String) (params : List String) (lineno : Nat) (body : List PyStmt)
  | asyncFunctionDef (name : String) (params : List String) (lineno : Nat) (body : List PyStmt)
  | classDef (name : String) (lineno : Nat) (bases : List PyBase) (body : List PyStmt)
  | importStmt (names : List String)
  | importFrom (module : Option String)
  | other (body : List PyStmt)

/-- The statements `ast.walk` descends into from a given node
(`ast.iter_child_nodes` restricted to statement-shaped children). -/
def PyStmt.children : PyStmt → List PyStmt
  | .functionDef _ _ _ body => body
  | .asyncFunctionDef _ _ _ body => body
  | .classDef _ _ _ body => body
  | .importStmt _ => []
  | .importFrom _ => []
  | .other body => body

mutual

/-- Size of one statement (strictly larger than the total size of its
children); used as the termination measure of the breadth-first walk. -/
def PyStmt.size : PyStmt → Nat
  | .functionDef _ _ _ body => 1 + PyStmt.sizeList body
  | .asyncFunctionDef _ _ _ body => 1 + PyStmt.sizeList body
  | .classDef _ _ _ body => 1 + PyStmt.sizeList body
  | .importStmt _ => 1
  | .importFrom _ => 1
  | .other body => 1 + PyStmt.sizeList body

/-- Total size of a list of statements. -/
def PyStmt.sizeList : List PyStmt → Nat
  | [] => 0
  | s :: rest => PyStmt.size s + PyStmt.sizeList rest

end

theorem PyStmt.stmt_size_pos (s : PyStmt) : 0 < s.size := by
  cases s <;> simp [PyStmt.size]

theorem PyStmt.sizeList_append (a b : List PyStmt) :
    PyStmt.sizeList (a ++ b) = PyStmt.sizeList a + PyStmt.sizeList b := by
  induction a with
  | nil => simp [PyStmt.sizeList]
  | cons s rest ih => simp [PyStmt.sizeList, ih]; omega

theorem PyStmt.sizeList_children_lt (s : PyStmt) :
    PyStmt.sizeList s.children < s.size := by
  cases s <;> simp [PyStmt.children, PyStmt.size, PyStmt.sizeList]

/-- `ast.walk`: breadth-first traversal (a FIFO queue seeded with the
module body; each popped node is yielded and its children are appended). -/
def walk (q : List PyStmt) : List PyStmt :=
  match q with
  | [] => []
  | s :: rest => s :: walk (rest ++ s.children)
termination_by PyStmt.sizeList q
decreasing_by
  simp [PyStmt.sizeList, PyStmt.sizeList_append]
  have := PyStmt.sizeList_children_lt s
  omega

/-- One entry of the `"functions"` list built by `parse_python_file`:
`{"name": …, "params": …, "line": …, "calls": []}`. -/
structure FunctionRecord where
  name : String
  params : List String
  line : Nat
  calls : List String
deriving DecidableEq, Repr

/-- One entry of the `"classes"` list built by `parse_python_file`:
`{"name": …, "line": …, "methods": …, "inherits": …}`. -/
structure ClassRecord where
  name : String
  line : Nat
  methods : List String
  inherits : List String
deriving DecidableEq, Repr

/-- The dictionary returned by `parse_python_file`. The Python dict only
ever carries the keys `"functions"`, `"classes"`, `"imports"`; the
`error` field models the (optional) `"error"` key, which this code never
writes — reading it from the returned dict always gives `None`, encoded
here as the field being `none`. -/
structure ParseResult where
  functions : List FunctionRecord
  classes : List ClassRecord
  imports : List String
  error : Option String
deriving DecidableEq, Repr

/-- `result = {"functions": [], "classes": [], "imports": []}` (no
`"error"` key). -/
def ParseResult.empty : ParseResult := ⟨[], [], [], none⟩

/-- The outcome of `ast.parse(content, filename=filepath)`: the module
body of the syntax tree, or the exception text when parsing raised.
(CPython's `ast.parse` is external to the repository, so the embedding
takes its outcome as the input.) -/
inductive ParseOutcome where
  | ok (body : List PyStmt)
  | syntaxError (msg : String)

/-- The body of the `for node in ast.walk(tree)` loop of
`parse_python_file`: dispatch on the node's type and append to the
accumulated result. An `AsyncFunctionDef` node is not an instance of
`ast.FunctionDef` in CPython, so it matches none of the branches.
Class methods are the names of the *immediate* body statements that are
plain `FunctionDef`s; class bases contribute only `ast.Name` identifiers.
`ast.ImportFrom` contributes `node.module` only when truthy (CPython sets
`module=None` for relative imports such as `from . import x`; when it is
a string it is a nonempty dotted name, so truthiness is `isSome`). -/
def processNode (acc : ParseResult) (node : PyStmt) : ParseResult :=
  match node with
  | .functionDef n params lineno _ =>
      { acc with functions := acc.functions ++ [⟨n, params, lineno, []⟩] }
  | .classDef n lineno bases body =>
      { acc with classes := acc.classes ++
          [⟨n, lineno,
            body.filterMap (fun st =>
              match st with
              | .functionDef m _ _ _ => some m
              | _ => none),
            bases.filterMap (fun b =>
              match b with
              | .name i => some i
              | _ => none)⟩] }
  | .importStmt names => { acc with imports := acc.imports ++ names }
  | .importFrom mod =>
      match mod with
      | some m => { acc with imports := acc.imports ++ [m] }
      | none => acc
  | _ => acc

/-- `parse_python_file` of `code_parser.py`: on a parse failure the bare
`except:` swallows the exception and the initial empty result is
returned unchanged; otherwise every node reached by `ast.walk` is
processed in breadth-first order. (`ast.walk` yields the `Module` node
itself first; it matches no branch of the loop, so the embedding walks
from the module body.) -/
def parse_python_file (input : ParseOutcome) : ParseResult :=
  match input with
  | .syntaxError _ => ParseResult.empty
  | .ok body => (walk body).foldl processNode ParseResult.empty

/-- The statement that, within the walk order, yields a `"functions"`
entry (only a plain `ast.FunctionDef` does; an `AsyncFunctionDef` does
not). -/
def functionRecordOf : PyStmt → Option FunctionRecord
  | .functionDef n params lineno _ => some ⟨n, params, lineno, []⟩
  | _ => none

/-- The module body of the C1 scenario file: one function
`def run(a, b)` and one class `class Worker(BaseWorker)` whose single
method is `def start(self)`. -/
def scenarioModule : List PyStmt :=
  [.functionDef "run" ["a", "b"] 1 [],
   .classDef "Worker" 4 [.name "BaseWorker"] [.functionDef "start" ["self"] 5 []]]

/-! ## Embedding of `FileScanner` (`file_scanner.py`)

The filesystem is an explicit tree value.  Paths are segment lists
(`pathlib.Path(path).parts`); `os.path.basename` is the last segment.
A real directory listing has pairwise-distinct entry names, and
`sorted(os.listdir(path))` sorts those names lexicographically by code
point; the embedding keeps the entries of a directory as a list in
listing order and sorts them with a stable sort keyed by name, which
agrees with CPython's `sorted` on any real (duplicate-free) listing. -/

/-- A filesystem entry: a regular file with its byte size, or a
directory with its listing and a flag recording whether `os.listdir`
succeeds on it (`False` models a `PermissionError`). -/
inductive FSEntry where
  | file (name : String) (size : Nat)
  | dir (name : String) (readable : Bool) (children : List FSEntry)

/-- The entry's own name (what `os.listdir` of the parent reports). -/
def FSEntry.entryName : FSEntry → String
  | .file n _ => n
  | .dir n _ _ => n

mutual

/-- Size of an entry, strictly larger than the total size of its
children; induction measure for walk proofs. -/
def FSEntry.size : FSEntry → Nat
  | .file _ _ => 1
  | .dir _ _ children => 1 + FSEntry.sizeList children

/-- Total size of a listing. -/
def FSEntry.sizeList : List FSEntry → Nat
  | [] => 0
  | c :: rest => FSEntry.size c + FSEntry.sizeList rest

end

/-- `os.path.basename` on a path given by its segments. -/
def basename (parts : List String) : String := parts.getLastD ""

/-- The default `ignored_dirs` list of `FileScanner.__init__`. -/
def default_ignored_dirs : List String :=
  [".git", "node_modules", "venv", ".venv", "__pycache__",
   ".pytest_cache", "dist", "build", ".idea", ".vscode"]

/-- `FileScanner.should_ignore`: `any(ignored_dir in path_parts for
ignored_dir in self.ignored_dirs)`. -/
def should_ignore (ignored_dirs : List String) (path_parts : List String) : Bool :=
  ignored_dirs.any (fun d => path_parts.contains d)

/-- The static `language_extensions` table of `FileScanner.__init__`
(in insertion order, as Python dict iteration preserves it). -/
def language_extensions : List (String × List String) :=
  [("python", [".py"]), ("jac", [".jac"]),
   ("javascript", [".js", ".jsx", ".ts", ".tsx"]),
   ("java", [".java"]), ("cpp", [".cpp", ".h", ".hpp"])]

/-- Index of the last `'.'` in a character list, if any. -/
def lastDotIdx : List Char → Option Nat
  | [] => none
  | c :: rest =>
      match lastDotIdx rest with
      | some i => some (i + 1)
      | none => if c == '.' then some 0 else none

/-- The extension part of `os.path.splitext(filename)[1]` for a plain
base name: the suffix starting at the last dot, except that the run of
leading dots of the name never starts an extension (`".bashrc"` has
none). -/
def splitext_ext (name : String) : String :=
  let cs := name.data
  let leading := (cs.takeWhile (fun c => c == '.')).length
  match lastDotIdx cs with
  | some i => if leading ≤ i then String.mk (cs.drop i) else ""
  | none => ""

/-- `str.lower()` as a per-character map (the extensions compared
against are ASCII, where CPython's `lower` and `Char.toLower`
coincide). -/
def lowerStr (s : String) : String := String.mk (s.data.map Char.toLower)

/-- `FileScanner.detect_language`: look the lowercased extension up in
the table, first language whose extension list contains it wins,
`"unknown"` otherwise. -/
def detect_language (filename : String) : String :=
  let ext := lowerStr (splitext_ext filename)
  match language_extensions.find? (fun p => p.2.contains ext) with
  | some p => p.1
  | none => "unknown"

/-- One node of the dictionary tree returned by `generate_file_tree`:
either `{'name', 'type': 'file', 'path', 'language', 'size'}` or
`{'name', 'type': 'directory', 'path', 'children'}`. -/
inductive FileNode where
  | fileNode (name : String) (path : List String) (language : String) (size : Nat)
  | dirNode (name : String) (path : List String) (children : List FileNode)

/-- The `'name'` value of a node. -/
def FileNode.name : FileNode → String
  | .fileNode n _ _ _ => n
  | .dirNode n _ _ => n

/-- The `'path'` value of a node. -/
def FileNode.path : FileNode → List String
  | .fileNode _ p _ _ => p
  | .dirNode _ p _ => p

/-- Lexicographic code-point comparison of character lists: exactly the
order CPython's `sorted` uses on strings. -/
def charListLe : List Char → List Char → Bool
  | [], _ => true
  | _ :: _, [] => false
  | a :: as, b :: bs => if a < b then true else if b < a then false else charListLe as bs

/-- String comparison by code points. -/
def nameLe (a b : String) : Bool := charListLe a.data b.data

/-- Name order on directory entries (the sort key of
`sorted(os.listdir(path))` is the entry name). -/
def entryLe (a b : FSEntry) : Prop := nameLe a.entryName b.entryName = true

instance : DecidableRel entryLe :=
  fun a b => instDecidableEqBool (nameLe a.entryName b.entryName) true

/-- `sorted(os.listdir(path))` on the listing: stable sort of the
entries keyed by entry name (identical to sorting the distinct names
and resolving each back to its entry). -/
def sortByName (cs : List FSEntry) : List FSEntry :=
  List.insertionSort entryLe cs

/-- The inner `build_tree(path, depth)` of
`FileScanner.generate_file_tree`, with the descent bound carried as the
remaining fuel `max_depth + 1 - depth` (the source checks
`depth > max_depth`, which holds exactly when the fuel is `0`; the fuel
drops by one per directory level exactly as `depth` rises by one).
On fuel `0` or an ignored path the entry yields `None`; a file yields a
file dict; a directory yields a directory dict whose children are the
successfully built entries of the sorted listing, or `[]` when
`os.listdir` raises `PermissionError`. -/
def build_tree (ignored_dirs : List String) (path : List String) (e : FSEntry) :
    Nat → Option FileNode
  | 0 => none
  | fuel + 1 =>
      if should_ignore ignored_dirs path then none
      else
        match e with
        | .file _ sz =>
            some (.fileNode (basename path) path (detect_language (basename path)) sz)
        | .dir _ readable children =>
            let kids :=
              if readable then
                (sortByName children).filterMap
                  (fun c => build_tree ignored_dirs (path ++ [c.entryName]) c fuel)
              else []
            some (.dirNode (basename path) path kids)

/-- `FileScanner.generate_file_tree(root_path, max_depth)`: `None` when
the root path names nothing on disk (then `isfile` and `isdir` are both
false), otherwise the inner builder starting at depth `0`, i.e. fuel
`max_depth + 1`. -/
def generate_file_tree (ignored_dirs : List String) (rootPath : List String)
    (root : Option FSEntry) (max_depth : Nat := 10) : Option FileNode :=
  match root with
  | none => none
  | some e => build_tree ignored_dirs rootPath e (max_depth + 1)

mutual

/-- Every node of a built tree (the node itself and all descendants). -/
def FileNode.allNodes : FileNode → List FileNode
  | .fileNode n p l s => [.fileNode n p l s]
  | .dirNode n p cs => .dirNode n p cs :: FileNode.allNodesList cs

/-- All nodes of a forest. -/
def FileNode.allNodesList : List FileNode → List FileNode
  | [] => []
  | t :: rest => t.allNodes ++ FileNode.allNodesList rest

end

/-- Whether the filename passes the `extensions` filter of
`get_all_files`: with `extensions` absent (`None`) or an empty list the
Python truthiness test `if extensions:` fails and every file is kept;
otherwise `any(filename.endswith(ext) for ext in extensions)`. -/
def keepFile (extensions : Option (List String)) (filename : String) : Bool :=
  match extensions with
  | none => true
  | some exts => if exts.isEmpty then true else exts.any (fun e => filename.endsWith e)

/-- Whether an entry is a directory. -/
def FSEntry.isDirB : FSEntry → Bool
  | .file _ _ => false
  | .dir _ _ _ => true

/-- The file paths `os.walk` yields for one directory's listing (its
`filenames`, joined to `dirpath`), filtered by `extensions`. -/
def collectFiles (extensions : Option (List String)) (path : List String)
    (cs : List FSEntry) : List (List String) :=
  cs.filterMap (fun c =>
    match c with
    | .file n _ => if keepFile extensions n then some (path ++ [n]) else none
    | _ => none)

mutual

/-- `os.walk(root_path)` as used by `FileScanner.get_all_files`: visit
a directory, collect its files, then recurse into exactly the
subdirectories surviving the in-place pruning
`dirnames[:] = [d for d in dirnames if not self.should_ignore(os.path.join(dirpath, d))]`.
A directory whose listing cannot be read contributes nothing (the
default `os.walk` swallows listing errors), and walking a path that is
a plain file yields nothing. -/
def walk_files (ignored_dirs : List String) (extensions : Option (List String))
    (path : List String) : FSEntry → List (List String)
  | .file _ _ => []
  | .dir _ readable cs =>
      if readable then
        collectFiles extensions path cs ++ walkKept ignored_dirs extensions path cs
      else []

/-- Recurse into the non-pruned subdirectories of a listing, in
listing order. -/
def walkKept (ignored_dirs : List String) (extensions : Option (List String))
    (path : List String) : List FSEntry → List (List String)
  | [] => []
  | c :: rest =>
      (if c.isDirB && !should_ignore ignored_dirs (path ++ [c.entryName]) then
        walk_files ignored_dirs extensions (path ++ [c.entryName]) c
      else []) ++ walkKept ignored_dirs extensions path rest

end

/-- `FileScanner.get_all_files(root_path, extensions)`. -/
def get_all_files (ignored_dirs : List String) (rootPath : List String)
    (root : FSEntry) (extensions : Option (List String) := none) : List (List String) :=
  walk_files ignored_dirs extensions rootPath root

/-- A node whose immediate children (if any) are listed in
name-nondecreasing order. -/
def FileNode.ChildrenSortedByName : FileNode → Prop
  | .fileNode _ _ _ _ => True
  | .dirNode _ _ cs => cs.Pairwise (fun a b => nameLe a.name b.name = true)

/-! ## Helper lemmas -/

theorem charListLe_total : ∀ as bs : List Char,
    charListLe as bs = true ∨ charListLe bs as = true := by
  intro as
  induction as with
  | nil => intro bs; left; rfl
  | cons a as ih =>
    intro bs
    cases bs with
    | nil => right; rfl
    | cons b bs =>
      rcases lt_trichotomy a b with h | h | h
      · left; simp [charListLe, h]
      · subst h
        rcases ih bs with h' | h'
        · left; simp [charListLe, lt_irrefl, h']
        · right; simp [charListLe, lt_irrefl, h']
      · right; simp [charListLe, h]

theorem charListLe_trans : ∀ as bs cs : List Char,
    charListLe as bs = true → charListLe bs cs = true → charListLe as cs = true := by
  intro as
  induction as with
  | nil => intro bs cs _ _; rfl
  | cons a as ih =>
    intro bs cs h1 h2
    cases bs with
    | nil => simp [charListLe] at h1
    | cons b bs =>
      cases cs with
      | nil => simp [charListLe] at h2
      | cons c cs =>
        by_cases hab : a < b
        · by_cases hbc : b < c
          · simp [charListLe, lt_trans hab hbc]
          · by_cases hcb : c < b
            · simp [charListLe, hbc, hcb] at h2
            · have hbc' : b = c := by
                rcases lt_trichotomy b c with h | h | h
                · exact absurd h hbc
                · exact h
                · exact absurd h hcb
              subst hbc'
              simp [charListLe, hab]
        · by_cases hba : b < a
          · simp [charListLe, hab, hba] at h1
          · have hab' : a = b := by
              rcases lt_trichotomy a b with h | h | h
              · exact absurd h hab
              · exact h
              · exact absurd h hba
            subst hab'
            simp only [charListLe, if_neg (lt_irrefl a)] at h1
            by_cases hac : a < c
            · simp [charListLe, hac]
            · by_cases hca : c < a
              · simp [charListLe, hac, hca] at h2
              · simp only [charListLe, if_neg hac, if_neg hca] at h2 ⊢
                exact ih bs cs h1 h2

instance : IsTotal FSEntry entryLe :=
  ⟨fun a b => charListLe_total a.entryName.data b.entryName.data⟩

instance : IsTrans FSEntry entryLe :=
  ⟨fun a b c => charListLe_trans a.entryName.data b.entryName.data c.entryName.data⟩

theorem sortByName_sorted (cs : List FSEntry) :
    (sortByName cs).Pairwise entryLe :=
  List.sorted_insertionSort entryLe cs

theorem mem_sortByName {c : FSEntry} {cs : List FSEntry} :
    c ∈ sortByName cs ↔ c ∈ cs :=
  List.mem_insertionSort entryLe

theorem FSEntry.entry_size_pos (e : FSEntry) : 0 < e.size := by
  cases e <;> simp [FSEntry.size]

theorem FSEntry.size_le_sizeList {c : FSEntry} : ∀ {cs : List FSEntry},
    c ∈ cs → c.size ≤ FSEntry.sizeList cs := by
  intro cs
  induction cs with
  | nil => intro h; simp at h
  | cons d rest ih =>
    intro h
    rcases List.mem_cons.mp h with h | h
    · subst h; simp [FSEntry.sizeList]
    · have := ih h
      have := FSEntry.entry_size_pos d
      simp [FSEntry.sizeList]; omega

theorem basename_append (p : List String) (x : String) :
    basename (p ++ [x]) = x := by
  simp [basename]

theorem should_ignore_of_mem {ig parts : List String} {s : String}
    (hs : s ∈ ig) (hp : s ∈ parts) : should_ignore ig parts = true := by
  simp only [should_ignore, List.any_eq_true]
  exact ⟨s, hs, by simpa using hp⟩

theorem not_mem_of_not_ignored {ig parts : List String} {s : String}
    (h : should_ignore ig parts = false) (hp : s ∈ parts) : s ∉ ig := by
  intro hs
  rw [should_ignore_of_mem hs hp] at h
  cases h

theorem build_tree_shape {ig p : List String} {e : FSEntry} {fuel : Nat} {t : FileNode}
    (h : build_tree ig p e fuel = some t) :
    t.name = basename p ∧ t.path = p ∧ should_ignore ig p = false := by
  cases fuel with
  | zero => simp [build_tree] at h
  | succ n =>
    by_cases hig : should_ignore ig p
    · simp [build_tree, hig] at h
    · cases e with
      | file nm sz =>
        simp only [build_tree, hig, if_false, Bool.false_eq_true] at h
        cases h
        exact ⟨rfl, rfl, by simpa using hig⟩
      | dir nm readable cs =>
        simp only [build_tree, hig, if_false, Bool.false_eq_true] at h
        cases h
        exact ⟨rfl, rfl, by simpa using hig⟩

theorem mem_allNodesList {n : FileNode} : ∀ {cs : List FileNode},
    n ∈ FileNode.allNodesList cs ↔ ∃ t ∈ cs, n ∈ t.allNodes := by
  intro cs
  induction cs with
  | nil => simp [FileNode.allNodesList]
  | cons t rest ih =>
    simp [FileNode.allNodesList, List.mem_append, ih]

theorem self_mem_allNodes (n : FileNode) : n ∈ n.allNodes := by
  cases n <;> simp [FileNode.allNodes]

theorem foldl_functions : ∀ (nodes : List PyStmt) (acc : ParseResult),
    ((nodes.foldl processNode acc).functions) =
      acc.functions ++ nodes.filterMap functionRecordOf := by
  intro nodes
  induction nodes with
  | nil => intro acc; simp
  | cons s rest ih =>
    intro acc
    simp only [List.foldl_cons, List.filterMap_cons]
    rw [ih]
    cases s with
    | functionDef n params lineno body =>
      simp [processNode, functionRecordOf]
    | asyncFunctionDef n params lineno body =>
      simp [processNode, functionRecordOf]
    | classDef n lineno bases body =>
      simp [processNode, functionRecordOf]
    | importStmt names =>
      simp [processNode, functionRecordOf]
    | importFrom mod =>
      cases mod <;> simp [processNode, functionRecordOf]
    | other body =>
      simp [processNode, functionRecordOf]

theorem pairwise_filterMap_of_pairwise {α β : Type} {R : α → α → Prop} {S : β → β → Prop}
    {f : α → Option β}
    (H : ∀ a b x y, R a b → f a = some x → f b = some y → S x y) :
    ∀ {l : List α}, l.Pairwise R → (l.filterMap f).Pairwise S := by
  intro l
  induction l with
  | nil => intro _; simp
  | cons a rest ih =>
    intro hp
    rcases List.pairwise_cons.mp hp with ⟨ha, hrest⟩
    rw [List.filterMap_cons]
    cases hfa : f a with
    | none => exact ih hrest
    | some x =>
      rw [List.pairwise_cons]
      refine ⟨?_, ih hrest⟩
      intro y hy
      rcases List.mem_filterMap.mp hy with ⟨b, hb, hfb⟩
      exact H a b x y (ha b hb) hfa hfb

/-- Every node of a successfully built tree sits at a non-ignored path:
the walk re-checks `should_ignore` on every entry it descends to. -/
theorem build_tree_not_ignored_aux : ∀ (N : Nat) (e : FSEntry), e.size ≤ N →
    ∀ (ig p : List String) (fuel : Nat) (t : FileNode),
      build_tree ig p e fuel = some t →
      ∀ n ∈ t.allNodes, should_ignore ig n.path = false := by
  intro N
  induction N with
  | zero =>
    intro e he
    have := FSEntry.entry_size_pos e
    omega
  | succ N ih =>
    intro e he ig p fuel t ht n hn
    cases fuel with
    | zero => simp [build_tree] at ht
    | succ f =>
      by_cases hig : should_ignore ig p
      · simp [build_tree, hig] at ht
      · cases e with
        | file nm sz =>
          simp only [build_tree, hig, Bool.false_eq_true, if_false] at ht
          cases ht
          simp only [FileNode.allNodes, List.mem_singleton] at hn
          subst hn
          simpa [FileNode.path] using hig
        | dir nm readable cs =>
          simp only [build_tree, hig, Bool.false_eq_true, if_false] at ht
          cases ht
          simp only [FileNode.allNodes, List.mem_cons] at hn
          rcases hn with hn | hn
          · subst hn
            simpa [FileNode.path] using hig
          · rcases mem_allNodesList.mp hn with ⟨k, hk, hnk⟩
            cases readable with
            | false => simp at hk
            | true =>
              simp only [if_true] at hk
              rcases List.mem_filterMap.mp hk with ⟨c, hc, hbuild⟩
              have hc' : c ∈ cs := mem_sortByName.mp hc
              have hsz : c.size ≤ N := by
                have h1 := FSEntry.size_le_sizeList hc'
                simp only [FSEntry.size] at he
                omega
              exact ih c hsz ig (p ++ [c.entryName]) f k hbuild n hnk

/-- Every directory node of a successfully built tree lists its
children in name-nondecreasing order. -/
theorem build_tree_sorted_aux : ∀ (N : Nat) (e : FSEntry), e.size ≤ N →
    ∀ (ig p : List String) (fuel : Nat) (t : FileNode),
      build_tree ig p e fuel = some t →
      ∀ n ∈ t.allNodes, n.ChildrenSortedByName := by
  intro N
  induction N with
  | zero =>
    intro e he
    have := FSEntry.entry_size_pos e
    omega
  | succ N ih =>
    intro e he ig p fuel t ht n hn
    cases fuel with
    | zero => simp [build_tree] at ht
    | succ f =>
      by_cases hig : should_ignore ig p
      · simp [build_tree, hig] at ht
      · cases e with
        | file nm sz =>
          simp only [build_tree, hig, Bool.false_eq_true, if_false] at ht
          cases ht
          simp only [FileNode.allNodes, List.mem_singleton] at hn
          subst hn
          simp [FileNode.ChildrenSortedByName]
        | dir nm readable cs =>
          simp only [build_tree, hig, Bool.false_eq_true, if_false] at ht
          cases ht
          simp only [FileNode.allNodes, List.mem_cons] at hn
          rcases hn with hn | hn
          · subst hn
            cases readable with
            | false => simp [FileNode.ChildrenSortedByName]
            | true =>
              simp only [FileNode.ChildrenSortedByName, if_true]
              refine pairwise_filterMap_of_pairwise ?_ (sortByName_sorted cs)
              intro a b x y hab hfa hfb
              have hxa := (build_tree_shape hfa).1
              have hyb := (build_tree_shape hfb).1
              rw [basename_append] at hxa hyb
              rw [hxa, hyb]
              exact hab
          · rcases mem_allNodesList.mp hn with ⟨k, hk, hnk⟩
            cases readable with
            | false => simp at hk
            | true =>
              simp only [if_true] at hk
              rcases List.mem_filterMap.mp hk with ⟨c, hc, hbuild⟩
              have hc' : c ∈ cs := mem_sortByName.mp hc
              have hsz : c.size ≤ N := by
                have h1 := FSEntry.size_le_sizeList hc'
                simp only [FSEntry.size] at he
                omega
              exact ih c hsz ig (p ++ [c.entryName]) f k hbuild n hnk

theorem mem_collectFiles {exts : Option (List String)} {path p : List String}
    {cs : List FSEntry} :
    p ∈ collectFiles exts path cs ↔
      ∃ n sz, FSEntry.file n sz ∈ cs ∧ keepFile exts n = true ∧ p = path ++ [n] := by
  constructor
  · intro hp
    rcases List.mem_filterMap.mp hp with ⟨c, hc, hsome⟩
    cases c with
    | file n sz =>
      by_cases hk : keepFile exts n
      · simp only [hk, if_true] at hsome
        cases hsome
        exact ⟨n, sz, hc, hk, rfl⟩
      · simp [hk] at hsome
    | dir nm r cc => simp at hsome
  · rintro ⟨n, sz, hc, hk, rfl⟩
    exact List.mem_filterMap.mpr ⟨.file n sz, hc, by simp [hk]⟩

theorem mem_walkKept {ig : List String} {exts : Option (List String)} {path : List String} :
    ∀ {cs : List FSEntry} {p : List String}, p ∈ walkKept ig exts path cs →
      ∃ c ∈ cs, c.isDirB = true ∧ should_ignore ig (path ++ [c.entryName]) = false ∧
        p ∈ walk_files ig exts (path ++ [c.entryName]) c := by
  intro cs
  induction cs with
  | nil => intro p hp; simp [walkKept] at hp
  | cons c rest ih =>
    intro p hp
    simp only [walkKept, List.mem_append] at hp
    rcases hp with hp | hp
    · by_cases hcond : (c.isDirB && !should_ignore ig (path ++ [c.entryName])) = true
      · rcases (Bool.and_eq_true _ _).mp hcond with ⟨hdir, hnig⟩
        rw [hcond, if_pos rfl] at hp
        exact ⟨c, List.mem_cons_self c rest, hdir, by simpa using hnig, hp⟩
      · simp [hcond] at hp
    · rcases ih hp with ⟨c', hc', h1, h2, h3⟩
      exact ⟨c', List.mem_cons_of_mem c hc', h1, h2, h3⟩

/-- Every path produced by the `os.walk`-based enumeration is a file
directly below a chain of intermediate directories none of whose names
is in the ignore list (the pruning applies only to directory names; the
file's own base name is never checked). -/
theorem walk_files_clean_aux : ∀ (N : Nat) (e : FSEntry), e.size ≤ N →
    ∀ (ig : List String) (exts : Option (List String)) (path p : List String),
      p ∈ walk_files ig exts path e →
      ∃ segs nm, p = path ++ (segs ++ [nm]) ∧ ∀ s ∈ segs, s ∉ ig := by
  intro N
  induction N with
  | zero =>
    intro e he
    have := FSEntry.entry_size_pos e
    omega
  | succ N ih =>
    intro e he ig exts path p hp
    cases e with
    | file nm sz => simp [walk_files] at hp
    | dir nm readable cs =>
      cases readable with
      | false => simp [walk_files] at hp
      | true =>
        simp only [walk_files, if_true, List.mem_append] at hp
        rcases hp with hp | hp
        · rcases mem_collectFiles.mp hp with ⟨n, sz, _, _, rfl⟩
          exact ⟨[], n, by simp, by simp⟩
        · rcases mem_walkKept hp with ⟨c, hc, _, hnig, hwalk⟩
          have hsz : c.size ≤ N := by
            have h1 := FSEntry.size_le_sizeList hc
            simp only [FSEntry.size] at he
            omega
          rcases ih c hsz ig exts (path ++ [c.entryName]) p hwalk with ⟨segs, n, hpeq, hclean⟩
          refine ⟨c.entryName :: segs, n, by simpa using hpeq, ?_⟩
          intro s hs
          rcases List.mem_cons.mp hs with hs | hs
          · subst hs
            exact not_mem_of_not_ignored hnig (by simp)
          · exact hclean s hs

/-- Full evaluation of the extractor on the C1 scenario module. -/
theorem scenario_parse_eval :
    parse_python_file (.ok scenarioModule) =
      { functions := [⟨"run", ["a", "b"], 1, []⟩, ⟨"start", ["self"], 5, []⟩],
        classes := [⟨"Worker", 4, ["start"], ["BaseWorker"]⟩],
        imports := [], error := none } := by
  simp [parse_python_file, scenarioModule, walk, PyStmt.children, processNode,
    ParseResult.empty]

/-! ## Claims -/

/-- C1 (amended): on a file defining exactly one function `run(a, b)`
and one class `Worker(BaseWorker)` with single method `start`, the
extractor returns exactly one Type record (`name="Worker"`,
`members=["start"]`, `supertypes=["BaseWorker"]`) but two Function
records — one for `run` with parameters `["a","b"]` and one for the
method `start`, because `ast.walk` also visits definitions nested in
the class body. -/
theorem C1_scenario_extraction :
    parse_python_file (.ok scenarioModule) =
      { functions := [⟨"run", ["a", "b"], 1, []⟩, ⟨"start", ["self"], 5, []⟩],
        classes := [⟨"Worker", 4, ["start"], ["BaseWorker"]⟩],
        imports := [], error := none } :=
  scenario_parse_eval

/-- C1 counterexample: the claim promises exactly one Function record on
the scenario file, but the extractor returns two (`run` and the method
`start`). -/
theorem C1_counterexample :
    (parse_python_file (.ok scenarioModule)).functions.length = 2 ∧
    ¬ (parse_python_file (.ok scenarioModule)).functions.length = 1 := by
  rw [scenario_parse_eval]
  exact ⟨rfl, by decide⟩

/-- C2 (amended): on every syntactically invalid input the extractor
returns the empty result — empty functions, classes and imports — with
NO error message recorded (the bare `except:` silently swallows the
parser's diagnostic), and the failure does not propagate as an
exception. -/
theorem C2_invalid_input (msg : String) :
    parse_python_file (.syntaxError msg) =
      { functions := [], classes := [], imports := [], error := none } :=
  rfl

/-- C2 counterexample: on invalid input the result carries no error
message at all (`error = none`), contradicting the claimed non-empty
diagnostic text. -/
theorem C2_counterexample :
    (parse_python_file (.syntaxError "invalid syntax")).error = none ∧
    (parse_python_file (.syntaxError "invalid syntax")).functions = [] ∧
    (parse_python_file (.syntaxError "invalid syntax")).imports = [] :=
  ⟨rfl, rfl, rfl⟩

/-- C9 (amended): the extractor emits one Function record — name, line
number, parameter list — for each *plain* (synchronous)
function-definition node reached by the walk, and none for an
asynchronous definition (`AsyncFunctionDef` matches no branch of the
dispatch, and the emitted records carry no async flag at all). -/
theorem C9_function_records (body : List PyStmt) :
    (parse_python_file (.ok body)).functions =
      (walk body).filterMap functionRecordOf ∧
    (∀ (n : String) (params : List String) (lineno : Nat) (b : List PyStmt),
       functionRecordOf (.asyncFunctionDef n params lineno b) = none) := by
  constructor
  · simp only [parse_python_file]
    rw [foldl_functions]
    simp [ParseResult.empty]
  · intro n params lineno b
    rfl

/-- C9 counterexample: a file whose only definition is
`async def fetch(url)` yields no Function record at all — the
asynchronous definition is skipped, not emitted with an async flag. -/
theorem C9_counterexample :
    (parse_python_file (.ok [.asyncFunctionDef "fetch" ["url"] 1 []])).functions = [] := by
  simp [parse_python_file, walk, PyStmt.children, processNode, ParseResult.empty]

/-- C3 (amended): the descent bound is a silent cutoff, but it omits
rather than keeps too-deep directories: a directory reached with no
remaining budget (`depth > max_depth`, i.e. fuel `0`) is dropped from
its parent entirely (`None`), while a directory reached exactly at the
bound (`depth = max_depth`, i.e. fuel `1`) is kept as a Directory node
with empty children; neither case is an error. -/
theorem C3_depth_cutoff (ig path : List String) (nm : String) (readable : Bool)
    (cs : List FSEntry) (hig : should_ignore ig path = false) :
    build_tree ig path (.dir nm readable cs) 0 = none ∧
    build_tree ig path (.dir nm readable cs) 1 =
      some (.dirNode (basename path) path []) := by
  refine ⟨rfl, ?_⟩
  have hnil : ∀ c ∈ sortByName cs, build_tree ig (path ++ [c.entryName]) c 0 = none :=
    fun c _ => rfl
  cases readable <;>
    simp [build_tree, hig, List.filterMap_eq_nil_iff.mpr hnil]

/-- C3 witness: a concrete instance of the cutoff behaviour. -/
theorem C3_depth_cutoff_witness :
    should_ignore default_ignored_dirs ["r"] = false ∧
    build_tree default_ignored_dirs ["r"] (.dir "r" true [.dir "a" true []]) 0 = none ∧
    build_tree default_ignored_dirs ["r"] (.dir "r" true [.dir "a" true []]) 1 =
      some (.dirNode "r" ["r"] []) :=
  ⟨by decide,
   (C3_depth_cutoff default_ignored_dirs ["r"] "r" true [.dir "a" true []] (by decide)).1,
   (C3_depth_cutoff default_ignored_dirs ["r"] "r" true [.dir "a" true []] (by decide)).2⟩

/-- C3 counterexample: with `max_depth = 0`, the subdirectory `a`
(nested deeper than the bound) does not appear in the built tree at
all — the root's children are empty, and no node named `a` exists —
contradicting "still appears … with an empty children sequence". -/
theorem C3_counterexample :
    generate_file_tree default_ignored_dirs ["r"]
        (some (.dir "r" true [.dir "a" true []])) 0 =
      some (.dirNode "r" ["r"] []) ∧
    ∀ n ∈ (FileNode.dirNode "r" ["r"] [] : FileNode).allNodes, ¬ n.name = "a" := by
  refine ⟨rfl, ?_⟩
  intro n hn
  simp only [FileNode.allNodes, FileNode.allNodesList, List.mem_singleton] at hn
  subst hn
  decide

/-- C4 (amended): no entry at an ignored path ever appears in the built
FileNode tree; in the flattened all-files list every intermediate
directory segment between the root and the file name is non-ignored —
but the file's own base name is not checked there, so a plain file
whose name equals an ignored directory name can still appear in the
flat list. -/
theorem C4_ignored_excluded (ig rootPath : List String) :
    (∀ (root : Option FSEntry) (maxd : Nat) (t : FileNode),
       generate_file_tree ig rootPath root maxd = some t →
       ∀ n ∈ t.allNodes, should_ignore ig n.path = false) ∧
    (∀ (e : FSEntry) (exts : Option (List String)) (p : List String),
       p ∈ get_all_files ig rootPath e exts →
       ∃ segs nm, p = rootPath ++ (segs ++ [nm]) ∧ ∀ s ∈ segs, s ∉ ig) := by
  constructor
  · intro root maxd t h n hn
    cases root with
    | none => simp [generate_file_tree] at h
    | some e =>
      exact build_tree_not_ignored_aux e.size e le_rfl ig rootPath (maxd + 1) t h n hn
  · intro e exts p hp
    exact walk_files_clean_aux e.size e le_rfl ig exts rootPath p hp

/-- C4 witness: concrete instances of both parts. -/
theorem C4_ignored_excluded_witness :
    should_ignore default_ignored_dirs ["r", "x.py"] = false ∧
    (∃ segs nm, (["r", "sub", "a.py"] : List String) = ["r"] ++ (segs ++ [nm]) ∧
       ∀ s ∈ segs, s ∉ default_ignored_dirs) :=
  ⟨(C4_ignored_excluded default_ignored_dirs ["r"]).1
     (some (.dir "r" true [.file "x.py" 1])) 10
     (.dirNode "r" ["r"] [.fileNode "x.py" ["r", "x.py"] "python" 1]) rfl
     (.fileNode "x.py" ["r", "x.py"] "python" 1)
     (List.mem_cons_of_mem _ (by simp [FileNode.allNodes, FileNode.allNodesList])),
   (C4_ignored_excluded default_ignored_dirs ["r"]).2
     (.dir "r" true [.dir "sub" true [.file "a.py" 1]]) none ["r", "sub", "a.py"]
     (by decide)⟩

/-- C4 counterexample: a plain file named `build` matches the ignore
rule (its base name is an ignored directory name) yet appears in the
flattened all-files list, because `get_all_files` prunes only directory
names. -/
theorem C4_counterexample :
    should_ignore default_ignored_dirs ["r", "build"] = true ∧
    ["r", "build"] ∈
      get_all_files default_ignored_dirs ["r"] (.dir "r" true [.file "build" 7]) none :=
  ⟨by decide, by decide⟩

/-- C5 (amended): a leading-dot base name is ignored exactly when it is
one of the literally dotted entries of the default `ignored_dirs` list
(`.git`, `.venv`, `.pytest_cache`, `.idea`, `.vscode`); there is no
general hidden-file rule, so other dot-files such as `.hidden` are not
ignored and do appear in the scan. -/
theorem C5_hidden_names (name : String) (h : name.data.head? = some '.') :
    should_ignore default_ignored_dirs [name] = true ↔
      name ∈ [".git", ".venv", ".pytest_cache", ".idea", ".vscode"] := by
  constructor
  · intro hig
    simp only [should_ignore, List.any_eq_true] at hig
    rcases hig with ⟨d, hd, hcont⟩
    have hdn : d = name := by simpa using hcont
    subst hdn
    simp only [default_ignored_dirs, List.mem_cons, List.not_mem_nil, or_false] at hd
    rcases hd with h1 | h1 | h1 | h1 | h1 | h1 | h1 | h1 | h1 | h1 <;> subst h1 <;>
      first
        | decide
        | exact absurd h (by decide)
  · intro hm
    simp only [List.mem_cons, List.not_mem_nil, or_false] at hm
    rcases hm with h1 | h1 | h1 | h1 | h1 <;> subst h1 <;> decide

/-- C5 witness: `.git` starts with a dot and is indeed ignored. -/
theorem C5_hidden_names_witness :
    (".git".data.head? = some '.') ∧
    (should_ignore default_ignored_dirs [".git"] = true ↔
      ".git" ∈ [".git", ".venv", ".pytest_cache", ".idea", ".vscode"]) :=
  ⟨by decide, C5_hidden_names ".git" (by decide)⟩

/-- C5 counterexample: `.hidden` starts with the hidden-file marker but
is not classified as ignored, and it appears in the built tree. -/
theorem C5_counterexample :
    should_ignore default_ignored_dirs [".hidden"] = false ∧
    generate_file_tree default_ignored_dirs ["r"]
        (some (.dir "r" true [.file ".hidden" 1])) 10 =
      some (.dirNode "r" ["r"] [.fileNode ".hidden" ["r", ".hidden"] "unknown" 1]) :=
  ⟨by decide, rfl⟩

/-- C6 (amended): a nonexistent root path yields the distinguished
empty result `None`; but a root that exists and is merely unreadable
yields an ordinary Directory node with empty children — exactly the
same value as a successful scan of an empty directory, so that failure
is NOT distinguishable from a successful empty tree. -/
theorem C6_root_failure (ig rootPath : List String) (maxd : Nat) :
    generate_file_tree ig rootPath none maxd = none ∧
    (∀ (nm : String) (cs : List FSEntry),
       generate_file_tree ig rootPath (some (.dir nm false cs)) maxd =
         generate_file_tree ig rootPath (some (.dir nm true [])) maxd) := by
  refine ⟨rfl, ?_⟩
  intro nm cs
  by_cases hig : should_ignore ig rootPath <;>
    simp [generate_file_tree, build_tree, hig, sortByName, List.insertionSort]

/-- C6 counterexample: scanning an unreadable root containing a file
returns the very same tree as successfully scanning an empty readable
directory — a `some` value, not a distinguishable failure. -/
theorem C6_counterexample :
    generate_file_tree default_ignored_dirs ["r"]
        (some (.dir "r" false [.file "secret.txt" 3])) 10 =
      generate_file_tree default_ignored_dirs ["r"] (some (.dir "r" true [])) 10 ∧
    ¬ generate_file_tree default_ignored_dirs ["r"]
        (some (.dir "r" false [.file "secret.txt" 3])) 10 = none := by
  refine ⟨rfl, ?_⟩
  intro h
  exact Option.noConfusion h

/-- C7: a subdirectory whose listing raises `PermissionError` is
represented as a Directory node with empty children (never an
exception, never `None` at a legal depth and path), and every sibling
entry that builds successfully still appears, fully built, among the
parent's children. -/
theorem C7_unreadable_subdir (ig path : List String) (nm : String) (cs : List FSEntry)
    (fuel : Nat) (hig : should_ignore ig path = false) :
    build_tree ig path (.dir nm false cs) (fuel + 1) =
      some (.dirNode (basename path) path []) ∧
    (∀ (pn : String) (pcs : List FSEntry) (c : FSEntry) (t : FileNode),
       c ∈ pcs → build_tree ig (path ++ [c.entryName]) c fuel = some t →
       ∃ kids, build_tree ig path (.dir pn true pcs) (fuel + 1) =
           some (.dirNode (basename path) path kids) ∧ t ∈ kids) := by
  constructor
  · simp [build_tree, hig]
  · intro pn pcs c t hc hbuild
    refine ⟨(sortByName pcs).filterMap
        (fun c => build_tree ig (path ++ [c.entryName]) c fuel), ?_, ?_⟩
    · simp [build_tree, hig]
    · exact List.mem_filterMap.mpr ⟨c, mem_sortByName.mpr hc, hbuild⟩

/-- C7 witness: an unreadable directory next to a readable file; the
unreadable one becomes an empty Directory node and the sibling file is
still scanned. -/
theorem C7_unreadable_subdir_witness :
    build_tree default_ignored_dirs ["r"] (.dir "locked" false [.file "s.txt" 1]) 11 =
      some (.dirNode "r" ["r"] []) ∧
    (∃ kids, build_tree default_ignored_dirs ["r"]
        (.dir "r" true [.dir "locked" false [.file "s.txt" 1], .file "ok.py" 2]) 11 =
        some (.dirNode "r" ["r"] kids) ∧
      FileNode.fileNode "ok.py" ["r", "ok.py"] "python" 2 ∈ kids) :=
  ⟨(C7_unreadable_subdir default_ignored_dirs ["r"] "locked" [.file "s.txt" 1] 10
      (by decide)).1,
   (C7_unreadable_subdir default_ignored_dirs ["r"] "locked" [.file "s.txt" 1] 10
      (by decide)).2 "r" [.dir "locked" false [.file "s.txt" 1], .file "ok.py" 2]
      (.file "ok.py" 2) (.fileNode "ok.py" ["r", "ok.py"] "python" 2)
      (List.mem_cons_of_mem _ (List.mem_cons_self _ _)) rfl⟩

/-- C8: the tree build is a pure function of the filesystem snapshot
and configuration — two runs on the same input give the same tree — and
every directory node of a built tree lists its children sorted by name
(lexicographic by code point, the key CPython's `sorted` uses), so the
result is structurally identical across runs, with identical ordering,
metadata and counts. -/
theorem C8_deterministic_sorted (ig rootPath : List String) (root : Option FSEntry)
    (maxd : Nat) :
    generate_file_tree ig rootPath root maxd = generate_file_tree ig rootPath root maxd ∧
    (∀ t, generate_file_tree ig rootPath root maxd = some t →
       ∀ n ∈ t.allNodes, n.ChildrenSortedByName) := by
  refine ⟨rfl, ?_⟩
  intro t h n hn
  cases root with
  | none => simp [generate_file_tree] at h
  | some e =>
    exact build_tree_sorted_aux e.size e le_rfl ig rootPath (maxd + 1) t h n hn

/-- C8 witness: a listing given out of order (`b` before `a.py`) is
built into a tree whose children are sorted by name. -/
theorem C8_deterministic_sorted_witness :
    (generate_file_tree default_ignored_dirs ["r"]
        (some (.dir "r" true [.dir "b" true [.file "x.py" 2], .file "a.py" 1])) 10 =
      generate_file_tree default_ignored_dirs ["r"]
        (some (.dir "r" true [.dir "b" true [.file "x.py" 2], .file "a.py" 1])) 10) ∧
    ∀ n ∈ (FileNode.dirNode "r" ["r"]
        [.fileNode "a.py" ["r", "a.py"] "python" 1,
         .dirNode "b" ["r", "b"] [.fileNode "x.py" ["r", "b", "x.py"] "python" 2]]).allNodes,
      n.ChildrenSortedByName :=
  ⟨(C8_deterministic_sorted default_ignored_dirs ["r"]
      (some (.dir "r" true [.dir "b" true [.file "x.py" 2], .file "a.py" 1])) 10).1,
   fun n hn =>
    (C8_deterministic_sorted default_ignored_dirs ["r"]
      (some (.dir "r" true [.dir "b" true [.file "x.py" 2], .file "a.py" 1])) 10).2
      (FileNode.dirNode "r" ["r"]
        [.fileNode "a.py" ["r", "a.py"] "python" 1,
         .dirNode "b" ["r", "b"] [.fileNode "x.py" ["r", "b", "x.py"] "python" 2]])
      rfl n hn⟩

/-- C10 (amended): the ignore check matches the configured names
against every path segment, including a plain file's own base name, and
such entries never appear in the built tree; but the flattened file
list prunes only *directory* names, so a plain file whose own name
equals an ignored directory name still appears there. -/
theorem C10_segment_matching (ig parts : List String) (s : String)
    (hs : s ∈ ig) (hp : s ∈ parts) :
    should_ignore ig parts = true ∧
    (∀ (rootPath : List String) (root : Option FSEntry) (maxd : Nat) (t : FileNode),
       generate_file_tree ig rootPath root maxd = some t →
       ∀ n ∈ t.allNodes, should_ignore ig n.path = false) ∧
    (∀ (exts : Option (List String)) (path : List String) (dn : String)
       (cs : List FSEntry) (n : String) (sz : Nat),
       FSEntry.file n sz ∈ cs → keepFile exts n = true →
       path ++ [n] ∈ walk_files ig exts path (.dir dn true cs)) := by
  refine ⟨should_ignore_of_mem hs hp, ?_, ?_⟩
  · intro rootPath root maxd t h nn hn
    cases root with
    | none => simp [generate_file_tree] at h
    | some e =>
      exact build_tree_not_ignored_aux e.size e le_rfl ig rootPath (maxd + 1) t h nn hn
  · intro exts path dn cs n sz hc hk
    simp only [walk_files, if_true, List.mem_append]
    exact Or.inl (mem_collectFiles.mpr ⟨n, sz, hc, hk, rfl⟩)

/-- C10 witness: the ignored name `build` as a file's base name is
classified ignored yet still enumerated by the flat walk. -/
theorem C10_segment_matching_witness :
    should_ignore default_ignored_dirs ["r", "build"] = true ∧
    ["r", "build"] ∈
      walk_files default_ignored_dirs none ["r"] (.dir "r" true [.file "build" 7]) :=
  ⟨(C10_segment_matching default_ignored_dirs ["r", "build"] "build"
      (by decide) (by decide)).1,
   (C10_segment_matching default_ignored_dirs ["r", "build"] "build"
      (by decide) (by decide)).2.2 none ["r"] "r" [.file "build" 7] "build" 7
      (List.mem_cons_self _ _) rfl⟩

/-- C10 counterexample: a file named `dist` — whose own base name
matches an ignore rule — is NOT excluded from the flattened file
list. -/
theorem C10_counterexample :
    should_ignore default_ignored_dirs ["r", "dist"] = true ∧
    ["r", "dist"] ∈
      get_all_files default_ignored_dirs ["r"] (.dir "r" true [.file "dist" 4]) none :=
  ⟨by decide, by decide⟩

end CodeGenie
